import Mathlib

/-!
Shallow embedding of the registry and dispatch logic of
`src/source/renderer/zettlr-body.js` (class `ZettlrBody`):

* the bounded recent-documents list (`addRecentDocument`, fields
  `_recentDocs` / `_numRecentDocs`, the latter set to 10 in the constructor),
* the quicklook registry (`qlsplice`, `closeQuicklook`),
* the notification registry (`notifySplice`),
* the popup completion callback of `requestNewFileName`.

JavaScript arrays are lists; `Array.prototype.shift()` removes the front
element and is a no-op on an empty array, `splice(i, 1)` removes the element
at index `i`, `push` appends at the back.  Numeric document hashes are `Int`.
A method whose internal `while` loop can fail to terminate is modelled with
`Option`: `none` means the loop runs forever.
-/

namespace ZettlrBody

/-- An entry of `this._recentDocs`: the object literal
`\x7b 'hash': file.hash, 'name': file.name \x7d` pushed by
`addRecentDocument`. -/
structure RecentDoc where
  hash : Int
  name : String
deriving DecidableEq, Repr

/-- A `ZettlrFile` as consumed by the methods modelled here: only its `hash`
and `name` fields are read. -/
structure ZFile where
  hash : Int
  name : String
deriving DecidableEq, Repr

/-- The capacity installed by the constructor:
`this._numRecentDocs = 10`. -/
def defaultNumRecentDocs : Int := 10

/-- The eviction loop of `addRecentDocument`:
`while (this._recentDocs.length > this._numRecentDocs - 1)
this._recentDocs.shift()`.
`shift()` on an empty array is a no-op, so if the condition holds on the
empty list the loop never terminates; that case is `none`. -/
def evictLoop (numRecentDocs : Int) : List RecentDoc → Option (List RecentDoc)
  | [] => if (0 : Int) > numRecentDocs - 1 then none else some []
  | e :: rest =>
    if ((e :: rest).length : Int) > numRecentDocs - 1 then
      evictLoop numRecentDocs rest
    else
      some (e :: rest)

/-- `ZettlrBody.addRecentDocument(file)`.  `find` returns the first entry
whose `hash` strictly equals `file.hash`; in that case
`splice(indexOf(found), 1)` removes exactly that first matching entry
(`List.eraseP` with the same predicate) and `push(found)` re-appends the
found entry object itself.  Otherwise the eviction loop runs (`none` if it
diverges) and a fresh entry is appended. -/
def addRecentDocument (numRecentDocs : Int) (recentDocs : List RecentDoc)
    (file : ZFile) : Option (List RecentDoc) :=
  match recentDocs.find? (fun elem => elem.hash == file.hash) with
  | some found =>
    some (recentDocs.eraseP (fun elem => elem.hash == file.hash) ++ [found])
  | none =>
    match evictLoop numRecentDocs recentDocs with
    | none => none
    | some l => some (l ++ [⟨file.hash, file.name⟩])

/-- Runs `addRecentDocument` over a sequence of opened files, threading the
state and propagating divergence. -/
def addRecentRun (numRecentDocs : Int) (recentDocs : List RecentDoc) :
    List ZFile → Option (List RecentDoc)
  | [] => some recentDocs
  | f :: fs =>
    match addRecentDocument numRecentDocs recentDocs f with
    | none => none
    | some l => addRecentRun numRecentDocs l fs

/-- A quicklook window or notification handle.  JavaScript compares handles
by object identity (`indexOf` uses strict equality on references), modelled
by a numeric id. -/
abbrev Handle := Nat

/-- `ZettlrBody.qlsplice(zql)`: `indexOf(zql) > -1` holds exactly when the
handle occurs in `this._ql`, and `splice(index, 1)` at that index removes
the first occurrence (`List.erase`) and the method returns `true`;
otherwise the array is untouched and it returns `false`. -/
def qlsplice (ql : List Handle) (zql : Handle) : List Handle × Bool :=
  if zql ∈ ql then (ql.erase zql, true) else (ql, false)

/-- Modelled from the spec: `ZettlrQuicklook.close()` (its source file is not
part of this excerpt) synchronously tears the window down and, on its
destruction, calls back `qlsplice` on itself to remove its handle from the
owner collection. -/
def close (ql : List Handle) (zql : Handle) : List Handle :=
  (qlsplice ql zql).1

/-- `ZettlrBody.closeQuicklook()`:
`while (this._ql.length > 0) this._ql[0].close()`, where each `close`
splices the closed window out of the array (see `close`). -/
def closeQuicklook : List Handle → List Handle
  | [] => []
  | z :: rest => closeQuicklook (close (z :: rest) z)
termination_by l => l.length
decreasing_by
  simp [close, qlsplice]

/-- Result of `notifySplice`: the notification array afterwards, plus the
ordered list of handles that were sent a `moveUp()` signal. -/
structure NotifyResult where
  coll : List Handle
  signals : List Handle
deriving DecidableEq, Repr

/-- `ZettlrBody.notifySplice(ntf)`: if `indexOf(ntf) > -1` the first
occurrence is spliced out, then `for (let msg of this._n) msg.moveUp()`
sends exactly one signal to each element of the resulting array, in
order. -/
def notifySplice (n : List Handle) (ntf : Handle) : NotifyResult :=
  let n1 := if ntf ∈ n then n.erase ntf else n
  ⟨n1, n1⟩

/-- One message handed to `global.ipc.send`.  The payloads modelled here are
the rename payloads `\x7b 'name': ..., 'hash': ... \x7d`. -/
structure IpcMessage where
  channel : String
  name : String
  hash : Int
deriving DecidableEq, Repr

/-- The popup completion callback installed by
`ZettlrBody.requestNewFileName(file)`: it receives the submitted form
(`none` when the popup is dismissed without submission, `some v` with `v`
the text field value `form[0].value`) and returns the list of IPC messages
sent.  On submission it sends exactly one message on channel `file-rename`
with payload name `v` and hash `file.hash`; on dismissal it sends
nothing. -/
def requestNewFileNameCallback (file : ZFile) (form : Option String) :
    List IpcMessage :=
  match form with
  | some v => [⟨"file-rename", v, file.hash⟩]
  | none => []

end ZettlrBody

namespace ZettlrBody

/-- A list is a permutation of its first `find?` hit consed onto the list
with that hit erased (`eraseP` removes exactly the first match). -/
theorem perm_cons_eraseP {α : Type} (p : α → Bool) :
    ∀ (l : List α) (a : α), l.find? p = some a → l.Perm (a :: l.eraseP p) := by
  intro l
  induction l with
  | nil => intro a h; simp at h
  | cons x xs ih =>
    intro a h
    by_cases hx : p x
    · rw [List.find?_cons_of_pos _ hx] at h
      cases h
      rw [List.eraseP_cons_of_pos hx]
    · rw [List.find?_cons_of_neg _ hx] at h
      rw [List.eraseP_cons_of_neg hx]
      exact ((ih a h).cons x).trans (List.Perm.swap a x _)

/-- With a positive capacity the eviction loop terminates, leaves at most
`cap - 1` entries and only drops entries from the front (the result is a
sublist of the input). -/
theorem evictLoop_spec (cap : Int) (hcap : 1 ≤ cap) :
    ∀ l : List RecentDoc, ∃ r, evictLoop cap l = some r ∧
      (r.length : Int) ≤ cap - 1 ∧ r.Sublist l := by
  intro l
  induction l with
  | nil =>
    refine ⟨[], ?_, by simp; omega, List.Sublist.refl []⟩
    simp only [evictLoop]
    rw [if_neg (by omega)]
  | cons e rest ih =>
    by_cases hlen : ((e :: rest).length : Int) > cap - 1
    · obtain ⟨r, hr, hle, hsub⟩ := ih
      refine ⟨r, ?_, hle, hsub.cons e⟩
      simp only [evictLoop]
      rw [if_pos hlen]
      exact hr
    · refine ⟨e :: rest, ?_, by omega, List.Sublist.refl _⟩
      simp only [evictLoop]
      rw [if_neg hlen]

/-- With a positive capacity, one `addRecentDocument` call preserves the
invariant: length at most `cap` and pairwise distinct hashes. -/
theorem addRecentDocument_inv (cap : Int) (hcap : 1 ≤ cap)
    (docs : List RecentDoc) (file : ZFile)
    (hlen : (docs.length : Int) ≤ cap)
    (hnd : (docs.map RecentDoc.hash).Nodup) :
    ∃ l, addRecentDocument cap docs file = some l ∧
      (l.length : Int) ≤ cap ∧ (l.map RecentDoc.hash).Nodup := by
  unfold addRecentDocument
  cases hfind : docs.find? (fun elem => elem.hash == file.hash) with
  | some found =>
    have hperm : docs.Perm (found :: docs.eraseP (fun elem => elem.hash == file.hash)) :=
      perm_cons_eraseP _ docs found hfind
    have hperm2 :
        (docs.eraseP (fun elem => elem.hash == file.hash) ++ [found]).Perm docs :=
      (List.perm_append_singleton _ _).trans hperm.symm
    refine ⟨_, rfl, ?_, ?_⟩
    · rw [hperm2.length_eq]; exact hlen
    · exact ((hperm2.map RecentDoc.hash).nodup_iff).mpr hnd
  | none =>
    obtain ⟨r, hr, hle, hsub⟩ := evictLoop_spec cap hcap docs
    rw [hr]
    refine ⟨_, rfl, ?_, ?_⟩
    · rw [List.length_append]
      push_cast
      simp only [List.length_cons, List.length_nil]
      omega
    · rw [List.map_append]
      refine List.Nodup.append ((hsub.map RecentDoc.hash).nodup hnd) (List.nodup_singleton _) ?_
      intro a ha hb
      simp only [List.map_cons, List.map_nil, List.mem_singleton] at hb
      subst hb
      rw [List.find?_eq_none] at hfind
      rw [List.mem_map] at ha
      obtain ⟨d, hd, hdh⟩ := ha
      have := hfind d (hsub.subset hd)
      simp only [beq_iff_eq] at this
      exact this hdh

end ZettlrBody

namespace ZettlrBody

/-- Any run of `addRecentDocument` calls from a state satisfying the
invariant ends (with positive capacity) in a state satisfying it. -/
theorem addRecentRun_inv (cap : Int) (hcap : 1 ≤ cap) (files : List ZFile) :
    ∀ docs : List RecentDoc, (docs.length : Int) ≤ cap →
      (docs.map RecentDoc.hash).Nodup →
      ∃ l, addRecentRun cap docs files = some l ∧ (l.length : Int) ≤ cap ∧
        (l.map RecentDoc.hash).Nodup := by
  induction files with
  | nil => intro docs h1 h2; exact ⟨docs, rfl, h1, h2⟩
  | cons f fs ih =>
    intro docs h1 h2
    obtain ⟨m, hm, hm1, hm2⟩ := addRecentDocument_inv cap hcap docs f h1 h2
    obtain ⟨l, hl, hl1, hl2⟩ := ih m hm1 hm2
    refine ⟨l, ?_, hl1, hl2⟩
    simp only [addRecentRun]
    rw [hm]
    exact hl

/-- C1: for every sequence of `addRecentDocument` calls with capacity 10
starting from the empty list, the resulting list holds at most 10 entries
and no two entries share a hash. -/
theorem addRecentDocument_bounded_and_nodup (files : List ZFile) :
    ∃ docs, addRecentRun 10 [] files = some docs ∧ docs.length ≤ 10 ∧
      (docs.map RecentDoc.hash).Nodup := by
  obtain ⟨l, hl, h1, h2⟩ :=
    addRecentRun_inv 10 (by norm_num) files [] (by simp) (by simp)
  exact ⟨l, hl, by exact_mod_cast h1, h2⟩

/-- C2: eviction is from the least-recent front: with capacity 10, eleven
distinct documents leave exactly the last ten in order; with capacity 3,
opening A, B, C, then A again yields [B, C, A], and then D yields
[C, A, D]. -/
theorem addRecentDocument_eviction_scenarios :
    addRecentRun 10 []
        [⟨1, "D1"⟩, ⟨2, "D2"⟩, ⟨3, "D3"⟩, ⟨4, "D4"⟩, ⟨5, "D5"⟩, ⟨6, "D6"⟩,
          ⟨7, "D7"⟩, ⟨8, "D8"⟩, ⟨9, "D9"⟩, ⟨10, "D10"⟩, ⟨11, "D11"⟩] =
      some [⟨2, "D2"⟩, ⟨3, "D3"⟩, ⟨4, "D4"⟩, ⟨5, "D5"⟩, ⟨6, "D6"⟩,
        ⟨7, "D7"⟩, ⟨8, "D8"⟩, ⟨9, "D9"⟩, ⟨10, "D10"⟩, ⟨11, "D11"⟩] ∧
    addRecentRun 3 [] [⟨1, "A"⟩, ⟨2, "B"⟩, ⟨3, "C"⟩, ⟨1, "A"⟩] =
      some [⟨2, "B"⟩, ⟨3, "C"⟩, ⟨1, "A"⟩] ∧
    addRecentRun 3 [] [⟨1, "A"⟩, ⟨2, "B"⟩, ⟨3, "C"⟩, ⟨1, "A"⟩, ⟨4, "D"⟩] =
      some [⟨3, "C"⟩, ⟨1, "A"⟩, ⟨4, "D"⟩] :=
  ⟨by decide, by decide, by decide⟩

/-- C3: recording a document whose hash is already present moves the
matching entry to the last (most-recent) position, keeps the length, and
evicts nothing (the result is a permutation of the old list). -/
theorem addRecentDocument_existing_moves_to_last (cap : Int)
    (docs : List RecentDoc) (file : ZFile)
    (he : ∃ e ∈ docs, e.hash = file.hash) :
    ∃ l, addRecentDocument cap docs file = some l ∧
      l.length = docs.length ∧ l.Perm docs ∧
      ∃ e, l.getLast? = some e ∧ e.hash = file.hash := by
  have hsome : (docs.find? (fun elem => elem.hash == file.hash)).isSome := by
    rw [List.find?_isSome]
    obtain ⟨e, he1, he2⟩ := he
    exact ⟨e, he1, by simp [he2]⟩
  obtain ⟨found, hfind⟩ := Option.isSome_iff_exists.mp hsome
  have hperm :
      (docs.eraseP (fun elem => elem.hash == file.hash) ++ [found]).Perm docs :=
    (List.perm_append_singleton _ _).trans
      (perm_cons_eraseP _ docs found hfind).symm
  refine ⟨_, ?_, hperm.length_eq, hperm, found, List.getLast?_concat _, ?_⟩
  · unfold addRecentDocument
    rw [hfind]
  · have hp := List.find?_some hfind
    simpa using hp

theorem addRecentDocument_existing_moves_to_last_witness :
    ∃ l, addRecentDocument 10 [⟨1, "A"⟩, ⟨2, "B"⟩] ⟨1, "C"⟩ = some l ∧
      l.length = ([⟨1, "A"⟩, ⟨2, "B"⟩] : List RecentDoc).length ∧
      l.Perm [⟨1, "A"⟩, ⟨2, "B"⟩] ∧
      ∃ e, l.getLast? = some e ∧ e.hash = (⟨1, "C"⟩ : ZFile).hash :=
  addRecentDocument_existing_moves_to_last 10 [⟨1, "A"⟩, ⟨2, "B"⟩] ⟨1, "C"⟩
    ⟨⟨1, "A"⟩, by decide, by decide⟩

end ZettlrBody

namespace ZettlrBody

/-- C4: closing all quicklooks terminates and empties the collection, given
that each window's `close()` synchronously splices itself out via
`qlsplice` (the front window is always present, so each iteration shrinks
the collection). -/
theorem closeQuicklook_terminates_empty (ql : List Handle) :
    closeQuicklook ql = [] := by
  induction ql with
  | nil => rw [closeQuicklook]
  | cons z rest ih =>
    rw [closeQuicklook]
    simpa [close, qlsplice] using ih

/-- C5 counterexample: with capacity 0 and an empty list, the eviction loop
condition `length > numRecentDocs - 1` is `0 > -1`, which always holds while
`shift()` on an empty array changes nothing, so `addRecentDocument` never
terminates (modelled as `none`); the claimed immediate eviction, termination
and empty result do not happen. -/
theorem addRecentDocument_capacity_zero_diverges :
    addRecentDocument 0 [] ⟨1, "A"⟩ = none := by decide

/-- C5 amended: `addRecentDocument` terminates (is total) for every capacity
of at least 1, on every state and input. -/
theorem addRecentDocument_total_of_pos_capacity (cap : Int) (hcap : 1 ≤ cap)
    (docs : List RecentDoc) (file : ZFile) :
    ∃ l, addRecentDocument cap docs file = some l := by
  unfold addRecentDocument
  cases hfind : docs.find? (fun elem => elem.hash == file.hash) with
  | some found => exact ⟨_, rfl⟩
  | none =>
    obtain ⟨r, hr, _, _⟩ := evictLoop_spec cap hcap docs
    rw [hr]
    exact ⟨_, rfl⟩

theorem addRecentDocument_total_of_pos_capacity_witness :
    (1 : Int) ≤ 1 ∧ ∃ l, addRecentDocument 1 [] ⟨1, "A"⟩ = some l :=
  ⟨by norm_num, addRecentDocument_total_of_pos_capacity 1 (by norm_num) [] ⟨1, "A"⟩⟩

/-- C6: removing an absent handle is a silent no-op for both registries:
`qlsplice` leaves the array untouched and returns `false`, `notifySplice`
leaves the array untouched; and `qlsplice` returns `true` exactly when the
handle was present, in which case its first occurrence is removed. -/
theorem splice_unknown_handle_noop (ql n : List Handle) (z : Handle)
    (hql : z ∉ ql) (hn : z ∉ n) :
    qlsplice ql z = (ql, false) ∧ (notifySplice n z).coll = n ∧
    (∀ l : List Handle, ((qlsplice l z).2 = true ↔ z ∈ l)) ∧
    (∀ l : List Handle, z ∈ l → qlsplice l z = (l.erase z, true)) := by
  refine ⟨by simp [qlsplice, hql], by simp [notifySplice, hn], ?_, ?_⟩
  · intro l
    by_cases h : z ∈ l <;> simp [qlsplice, h]
  · intro l h
    simp [qlsplice, h]

theorem splice_unknown_handle_noop_witness :
    (5 : Handle) ∉ ([1, 2] : List Handle) ∧ (5 : Handle) ∉ ([3] : List Handle) ∧
      (qlsplice [1, 2] 5 = ([1, 2], false) ∧ (notifySplice [3] 5).coll = [3] ∧
        (∀ l : List Handle, ((qlsplice l 5).2 = true ↔ 5 ∈ l)) ∧
        (∀ l : List Handle, 5 ∈ l → qlsplice l 5 = (l.erase 5, true))) :=
  ⟨by decide, by decide,
    splice_unknown_handle_noop [1, 2] [3] 5 (by decide) (by decide)⟩

/-- C7: removing a present handle from the notification registry sends
exactly one `moveUp` signal to every remaining handle and none to the
removed one.  `Nodup` models JavaScript object identity: every notification
pushed is a fresh object, so the array never holds a handle twice. -/
theorem notifySplice_reposition_signals (n : List Handle) (ntf : Handle)
    (hnd : n.Nodup) (hm : ntf ∈ n) :
    (notifySplice n ntf).coll = n.erase ntf ∧
    (∀ h ∈ (notifySplice n ntf).coll,
      (notifySplice n ntf).signals.count h = 1) ∧
    (notifySplice n ntf).signals.count ntf = 0 := by
  have hcoll : (notifySplice n ntf).coll = n.erase ntf := by
    simp [notifySplice, hm]
  have hsig : (notifySplice n ntf).signals = n.erase ntf := by
    simp [notifySplice, hm]
  refine ⟨hcoll, ?_, ?_⟩
  · intro h hh
    rw [hcoll] at hh
    rw [hsig]
    exact List.count_eq_one_of_mem (hnd.erase ntf) hh
  · rw [hsig, List.count_erase_self, List.count_eq_one_of_mem hnd hm]

theorem notifySplice_reposition_signals_witness :
    (notifySplice [1, 2, 3] 2).coll = List.erase [1, 2, 3] 2 ∧
    (∀ h ∈ (notifySplice [1, 2, 3] 2).coll,
      (notifySplice [1, 2, 3] 2).signals.count h = 1) ∧
    (notifySplice [1, 2, 3] 2).signals.count 2 = 0 :=
  notifySplice_reposition_signals [1, 2, 3] 2 (by decide) (by decide)

end ZettlrBody

namespace ZettlrBody

/-- C8: the `requestNewFileName` popup callback sends exactly one message on
channel `file-rename` with payload name equal to the submitted form value
and hash equal to the file's hash, and sends nothing when the popup is
dismissed (`undefined` form); in particular hash 42 with submitted name
"Notes" yields exactly that one payload. -/
theorem requestNewFileName_dispatch :
    (∀ (file : ZFile) (v : String),
      requestNewFileNameCallback file (some v) =
        [⟨"file-rename", v, file.hash⟩]) ∧
    (∀ file : ZFile, requestNewFileNameCallback file none = []) ∧
    requestNewFileNameCallback ⟨42, "Old"⟩ (some "Notes") =
      [⟨"file-rename", "Notes", 42⟩] :=
  ⟨fun _ _ => rfl, fun _ => rfl, rfl⟩

/-- C9: recording a file whose hash is already present re-appends the stored
entry object itself, so the entry keeps the display name it was first
recorded with (no entry built from the new file's name is created: every
entry of the result was already in the list). -/
theorem addRecentDocument_keeps_displayName (cap : Int)
    (docs : List RecentDoc) (file : ZFile) (e : RecentDoc)
    (hf : docs.find? (fun d => d.hash == file.hash) = some e) :
    ∃ l, addRecentDocument cap docs file = some l ∧
      l.getLast? = some e ∧ e ∈ docs ∧ ∀ d ∈ l, d ∈ docs := by
  refine ⟨_, by unfold addRecentDocument; rw [hf], List.getLast?_concat _,
    List.mem_of_find?_eq_some hf, ?_⟩
  intro d hd
  rw [List.mem_append] at hd
  cases hd with
  | inl h => exact (List.eraseP_sublist _).subset h
  | inr h =>
    simp only [List.mem_singleton] at h
    subst h
    exact List.mem_of_find?_eq_some hf

theorem addRecentDocument_keeps_displayName_witness :
    ∃ l, addRecentDocument 10 [⟨1, "old"⟩] ⟨1, "new"⟩ = some l ∧
      l.getLast? = some ⟨1, "old"⟩ ∧
      (⟨1, "old"⟩ : RecentDoc) ∈ ([⟨1, "old"⟩] : List RecentDoc) ∧
      ∀ d ∈ l, d ∈ ([⟨1, "old"⟩] : List RecentDoc) :=
  addRecentDocument_keeps_displayName 10 [⟨1, "old"⟩] ⟨1, "new"⟩ ⟨1, "old"⟩
    (by decide)

/-- C10: `notifySplice` with an absent handle leaves the collection
unchanged but still runs the reposition loop, sending exactly one `moveUp`
signal to every handle in the collection (`Nodup` models JavaScript object
identity of the freshly constructed notifications). -/
theorem notifySplice_absent_signals_all (n : List Handle) (ntf : Handle)
    (hnd : n.Nodup) (hm : ntf ∉ n) :
    (notifySplice n ntf).coll = n ∧
    ∀ h ∈ n, (notifySplice n ntf).signals.count h = 1 := by
  have hcoll : (notifySplice n ntf).coll = n := by
    simp [notifySplice, hm]
  have hsig : (notifySplice n ntf).signals = n := by
    simp [notifySplice, hm]
  refine ⟨hcoll, ?_⟩
  intro h hh
  rw [hsig]
  exact List.count_eq_one_of_mem hnd hh

theorem notifySplice_absent_signals_all_witness :
    (notifySplice [1, 2] 5).coll = [1, 2] ∧
    ∀ h ∈ ([1, 2] : List Handle), (notifySplice [1, 2] 5).signals.count h = 1 :=
  notifySplice_absent_signals_all [1, 2] 5 (by decide) (by decide)

end ZettlrBody
